import Mathlib

/-!
# Black-hole ray marcher: embedding of `src/main.cpp`

The fragment shader (`fragmentShaderSource`) and the host camera update of `main`
are embedded over the real numbers: a GLSL/C `float` is read as a real, `sqrt`,
`sin`, `cos`, `asin` and the two-argument `atan` are the real functions, and a
division by zero takes Lean's value `0` (the theorems about a normalised vector
prove that the vector handed to `normalize` is not zero).  Vectors are records of
their components, the operators used by the shader are defined component-wise.
-/

noncomputable section

namespace BlackHole

/-! ## Vectors -/

/-- GLSL `vec2`. -/
structure Vec2 where
  x : ℝ
  y : ℝ

/-- GLSL `vec3`. -/
structure Vec3 where
  x : ℝ
  y : ℝ
  z : ℝ

/-- GLSL `vec4`. -/
structure Vec4 where
  x : ℝ
  y : ℝ
  z : ℝ
  w : ℝ

instance : Add Vec2 := ⟨fun a b => ⟨a.x + b.x, a.y + b.y⟩⟩
instance : Sub Vec2 := ⟨fun a b => ⟨a.x - b.x, a.y - b.y⟩⟩
instance : HMul Vec2 ℝ Vec2 := ⟨fun a k => ⟨a.x * k, a.y * k⟩⟩
instance : HSub Vec2 ℝ Vec2 := ⟨fun a k => ⟨a.x - k, a.y - k⟩⟩

instance : Add Vec3 := ⟨fun a b => ⟨a.x + b.x, a.y + b.y, a.z + b.z⟩⟩
instance : Sub Vec3 := ⟨fun a b => ⟨a.x - b.x, a.y - b.y, a.z - b.z⟩⟩
instance : HMul Vec3 ℝ Vec3 := ⟨fun a k => ⟨a.x * k, a.y * k, a.z * k⟩⟩
instance : HMul ℝ Vec3 Vec3 := ⟨fun k a => ⟨k * a.x, k * a.y, k * a.z⟩⟩
instance : HDiv Vec3 ℝ Vec3 := ⟨fun a k => ⟨a.x / k, a.y / k, a.z / k⟩⟩
instance : HAdd Vec3 ℝ Vec3 := ⟨fun a k => ⟨a.x + k, a.y + k, a.z + k⟩⟩

/-- GLSL `vec2(a)`: both components equal to `a`. -/
def vec2 (a : ℝ) : Vec2 := ⟨a, a⟩

/-- GLSL `vec3(a)`: all components equal to `a`. -/
def vec3 (a : ℝ) : Vec3 := ⟨a, a, a⟩

/-- GLSL `vec4(v, w)`. -/
def vec4 (v : Vec3) (w : ℝ) : Vec4 := ⟨v.x, v.y, v.z, w⟩

/-- GLSL `length` on `vec2`. -/
def Vec2.length (v : Vec2) : ℝ := Real.sqrt (v.x * v.x + v.y * v.y)

/-- GLSL `length` on `vec3`. -/
def Vec3.length (v : Vec3) : ℝ := Real.sqrt (v.x * v.x + v.y * v.y + v.z * v.z)

/-- GLSL `dot` on `vec3` (used in statements only). -/
def Vec3.dot (a b : Vec3) : ℝ := a.x * b.x + a.y * b.y + a.z * b.z

/-- GLSL `cross`. -/
def cross (a b : Vec3) : Vec3 :=
  ⟨a.y * b.z - b.y * a.z, a.z * b.x - b.z * a.x, a.x * b.y - b.x * a.y⟩

/-- GLSL `normalize`: the vector divided by its length. -/
def normalize (v : Vec3) : Vec3 := v / v.length

/-- GLSL `floor` on `vec2`. -/
def Vec2.floor (v : Vec2) : Vec2 := ⟨(⌊v.x⌋ : ℝ), (⌊v.y⌋ : ℝ)⟩

/-- GLSL `fract` on `vec2`: `v - floor(v)`. -/
def Vec2.fract (v : Vec2) : Vec2 := ⟨v.x - (⌊v.x⌋ : ℝ), v.y - (⌊v.y⌋ : ℝ)⟩

/-- GLSL two-argument `atan(y, x)`: the angle of the point `(x, y)`, in `(-π, π]`. -/
def atan (y x : ℝ) : ℝ := Complex.arg ⟨x, y⟩

/-- GLSL `asin`. -/
def asin (x : ℝ) : ℝ := Real.arcsin x

/-- GLSL `clamp(x, lo, hi) = min(max(x, lo), hi)`. -/
def clamp (x lo hi : ℝ) : ℝ := min (max x lo) hi

/-- GLSL `smoothstep(edge0, edge1, x)`. -/
def smoothstep (edge0 edge1 x : ℝ) : ℝ :=
  let t := clamp ((x - edge0) / (edge1 - edge0)) 0 1
  t * t * (3 - 2 * t)

/-! ## Fragment shader -/

/-- The shader's uniforms. -/
structure Uniforms where
  iTime : ℝ
  iResolution : Vec2
  camPos : Vec3
  camDir : Vec3
  camUp : Vec3
  fov : ℝ

def blackHolePos : Vec3 := ⟨0, 0, 0⟩
def horizonRadius : ℝ := 1.0
def diskInner : ℝ := 1.5
def diskOuter : ℝ := 4.0
def G : ℝ := 1.0
def c : ℝ := 1.0

/-- The step size `float dt = 0.05` of the shader's `main`. -/
def dt : ℝ := 0.05

/-- `float accretionDisk(vec3 pos)`, with the uniform `iTime` as a parameter. -/
def accretionDisk (iTime : ℝ) (pos : Vec3) : ℝ :=
  let angle := iTime * 0.5
  let rotated : Vec2 :=
    ⟨pos.x * Real.cos angle - pos.z * Real.sin angle,
     pos.x * Real.sin angle + pos.z * Real.cos angle⟩
  let r := rotated.length
  let h := |pos.y|
  if r > diskInner ∧ r < diskOuter ∧ h < 0.1 then
    1.0 - (r - diskInner) / (diskOuter - diskInner)
  else 0.0

/-- The camera basis `f, s, u` built by `rayDirection`. -/
def cameraBasis (eye center up : Vec3) : Vec3 × Vec3 × Vec3 :=
  let f := normalize (center - eye)
  let s := normalize (cross f up)
  let u := cross s f
  (f, s, u)

/-- `vec3 rayDirection(vec2 uv, vec3 eye, vec3 center, vec3 up, float fov)`. -/
def rayDirection (uv : Vec2) (eye center up : Vec3) (fov : ℝ) : Vec3 :=
  let f := normalize (center - eye)
  let s := normalize (cross f up)
  let u := cross s f
  normalize (f * fov + s * uv.x + u * uv.y)

/-- The variables of the integrator loop of the shader's `main`. -/
structure March where
  pos : Vec3
  rayDir : Vec3
  t : ℝ
  color : Vec3
  hitHorizon : Bool
  hitDisk : Bool
  i : ℕ

/-- The deflection `force` computed from the advanced position. -/
def force (pos : Vec3) : Vec3 :=
  let toBH := blackHolePos - pos
  let dist := toBH.length
  toBH / (dist * dist * dist) * G / (c * c)

/-- The vector handed to `normalize` by the deflection update:
`rayDir + force * dt`, with `force` taken at the advanced position. -/
def deflected (s : March) : Vec3 :=
  s.rayDir + force (s.pos + s.rayDir * dt) * dt

/-- One pass through the body of `for(int i = 0; i < 1000; i++)`.
The flag is `true` when the pass leaves through a `break`. -/
def loopBody (iTime : ℝ) (s : March) : March × Bool :=
  let pos := s.pos + s.rayDir * dt
  let r := (pos - blackHolePos).length
  if r < horizonRadius then
    ({ s with pos := pos, hitHorizon := true }, true)
  else
    let disk := accretionDisk iTime pos
    if disk > 0.0 then
      ({ s with pos := pos, color := (⟨1, 0.5, 0⟩ : Vec3) * disk, hitDisk := true }, true)
    else
      let toBH := blackHolePos - pos
      let dist := toBH.length
      let rayDir :=
        if dist > 0.1 then
          normalize (s.rayDir + (toBH / (dist * dist * dist) * G / (c * c)) * dt)
        else s.rayDir
      let t := s.t + dt
      if t > 100.0 then
        ({ s with pos := pos, rayDir := rayDir, t := t }, true)
      else
        ({ s with pos := pos, rayDir := rayDir, t := t }, false)

/-- The loop `for(int i = 0; i < 1000; i++) { ... }`, run from the state `s`
(whose field `i` is the loop counter); `fuel` bounds the number of passes. -/
def forLoop (iTime : ℝ) : ℕ → March → March
  | 0, s => s
  | fuel + 1, s =>
    if s.i < 1000 then
      let r := loopBody iTime s
      if r.2 then r.1 else forLoop iTime fuel { r.1 with i := r.1.i + 1 }
    else s

/-- The state at the start of pass number `k` (counted from `0`) of the loop run
from `s`, when the loop is still running there; `none` when it has left before. -/
def iterStart (iTime : ℝ) : ℕ → March → Option March
  | 0, s => if s.i < 1000 then some s else none
  | k + 1, s =>
    if s.i < 1000 then
      let r := loopBody iTime s
      if r.2 then none else iterStart iTime k { r.1 with i := r.1.i + 1 }
    else none

/-- The scaled angular coordinates `st` of the starfield branch. -/
def starSt (rayDir : Vec3) : Vec2 :=
  (⟨atan rayDir.x rayDir.z, asin rayDir.y⟩ : Vec2) * (50.0 : ℝ)

/-- The two nested loops over `y` and `x` in `-1..1` that compute `minDist`, started from
`minDist = 1.0`.  The local `point` of the source is never read and is left out. -/
def starMinDist (fst : Vec2) : ℝ :=
  ([-1, 0, 1] : List ℤ).foldl
    (fun m y => ([-1, 0, 1] : List ℤ).foldl
      (fun minDist x =>
        let neighbor : Vec2 := ⟨(x : ℝ), (y : ℝ)⟩
        let diff := neighbor + vec2 0.5 - fst
        min minDist diff.length) m)
    1.0

/-- The value `star` of the starfield branch. -/
def starIntensity (rayDir : Vec3) : ℝ :=
  1.0 - smoothstep 0.0 0.02 (starMinDist (starSt rayDir).fract)

/-- The value `starColor` of the starfield branch. -/
def starColor (rayDir : Vec3) : Vec3 :=
  let ist := (starSt rayDir).floor
  (⟨0.9, 0.95, 1.0⟩ : Vec3) + (0.1 : ℝ) * Real.sin (ist.x * 10.0 + ist.y * 5.0)

/-- The `else` branch of the colour selection: black sky with stars. -/
def starfield (rayDir : Vec3) : Vec4 :=
  let bg := vec3 0.0
  let star := starIntensity rayDir
  let bg := bg + star * starColor rayDir
  vec4 bg 1

/-- The loop variables as initialised by the shader's `main`. -/
def initMarch (U : Uniforms) (TexCoords : Vec2) : March :=
  let uv := (TexCoords - (0.5 : ℝ)) * (2.0 : ℝ)
  let uv : Vec2 := ⟨uv.x * (U.iResolution.x / U.iResolution.y), uv.y⟩
  let rayDir := rayDirection uv U.camPos (U.camPos + U.camDir) U.camUp U.fov
  { pos := U.camPos, rayDir := rayDir, t := 0.0, color := vec3 0,
    hitHorizon := false, hitDisk := false, i := 0 }

/-- The colour selection after the loop. -/
def shade (s : March) : Vec4 :=
  if s.hitDisk then vec4 s.color 1
  else if s.hitHorizon then ⟨0, 0, 0, 1⟩
  else starfield s.rayDir

/-- The fragment shader's `main`: the value written to `FragColor`. -/
def fragMain (U : Uniforms) (TexCoords : Vec2) : Vec4 :=
  shade (forLoop U.iTime 1000 (initMarch U TexCoords))

/-- Classification of a pixel evaluation. -/
inductive Classification
  | Horizon
  | Disk
  | Escape
  deriving DecidableEq

/-- The classification read off the flags after the loop, in the order
the colour selection tests them. -/
def classify (s : March) : Classification :=
  if s.hitDisk then .Disk else if s.hitHorizon then .Horizon else .Escape

/-! ## Host camera update -/

/-- The keys polled by one frame of the host loop. -/
structure Keys where
  W : Bool
  S : Bool
  A : Bool
  D : Bool
  LEFT : Bool
  RIGHT : Bool
  UP : Bool
  DOWN : Bool

/-- The host variables `camPos`, `camDir`, `yaw`, `pitch`. -/
structure Camera where
  camPos : Vec3
  camDir : Vec3
  yaw : ℝ
  pitch : ℝ

/-- The host variables before the first frame. -/
def Camera.init : Camera :=
  { camPos := ⟨0, 1, 5⟩, camDir := ⟨0, 0, -1⟩, yaw := 3.14159, pitch := 0.0 }

/-- The vector `right` of the strafe keys: `camDir` crossed with `(0,1,0)`, divided by
its length. -/
def strafeRight (camDir : Vec3) : Vec3 :=
  let right : Vec3 :=
    ⟨camDir.y * 0 - camDir.z * 1, camDir.z * 0 - camDir.x * 0, camDir.x * 1 - camDir.y * 0⟩
  let len := Real.sqrt (right.x * right.x + right.y * right.y + right.z * right.z)
  ⟨right.x / len, right.y / len, right.z / len⟩

/-- The camera controls of one frame of the host loop. -/
def cameraUpdate (k : Keys) (cam : Camera) : Camera :=
  let camDir := cam.camDir
  let camPos := cam.camPos
  let camPos := if k.W then camPos + camDir * (0.1 : ℝ) else camPos
  let camPos := if k.S then camPos - camDir * (0.1 : ℝ) else camPos
  let camPos := if k.A then camPos - strafeRight camDir * (0.1 : ℝ) else camPos
  let camPos := if k.D then camPos + strafeRight camDir * (0.1 : ℝ) else camPos
  let yaw := cam.yaw
  let pitch := cam.pitch
  let yaw := if k.LEFT then yaw - 0.02 else yaw
  let yaw := if k.RIGHT then yaw + 0.02 else yaw
  let pitch := if k.UP then pitch + 0.02 else pitch
  let pitch := if k.DOWN then pitch - 0.02 else pitch
  let pitch := if pitch > 1.5 then 1.5 else pitch
  let pitch := if pitch < -1.5 then -1.5 else pitch
  { camPos := camPos
    camDir := ⟨Real.sin yaw * Real.cos pitch, Real.sin pitch, Real.cos yaw * Real.cos pitch⟩
    yaw := yaw
    pitch := pitch }

/-- The camera after the frames whose key states are listed in `ks`. -/
def runFrames (cam : Camera) (ks : List Keys) : Camera :=
  ks.foldl (fun cam k => cameraUpdate k cam) cam

/-- The up vector uploaded by the host: `glUniform3f(camUpLoc, 0, 1, 0)`. -/
def camUp : Vec3 := ⟨0, 1, 0⟩

/-! ## Quantities used in the statements -/

/-- Radial distance from the vertical axis, `sqrt(x^2 + z^2)`. -/
def radial (p : Vec3) : ℝ := Real.sqrt (p.x * p.x + p.z * p.z)

/-- The disk intensity written as a function of the radial distance `r` and the
height `h` alone: the linear falloff between the two radii inside the slab, `0` outside. -/
def diskProfile (r h : ℝ) : ℝ :=
  if 1.5 < r ∧ r < 4 ∧ h < 0.1 then 1 - (r - 1.5) / (4 - 1.5) else 0

/-- The advanced position `pos + rayDir * dt` examined by a pass of the loop. -/
def advanced (s : March) : Vec3 := s.pos + s.rayDir * dt

/-- The loop variables at loop entry for a ray with start position `pos` and initial
direction `dir`. -/
def marchFrom (pos dir : Vec3) : March :=
  { pos := pos, rayDir := dir, t := 0.0, color := vec3 0,
    hitHorizon := false, hitDisk := false, i := 0 }

/-- The ray with start position `(0,1,20)` and initial direction `(0,1,0)`. -/
def escapeRay : March := marchFrom ⟨0, 1, 20⟩ ⟨0, 1, 0⟩

/-- Invariant of the loop along `escapeRay`: the direction is a unit vector, the ray
points away from the black hole, stays at distance at least `sqrt 401`, the path length
is `dt` times the counter and no flag is set. -/
def Receding (s : March) : Prop :=
  s.rayDir.dot s.rayDir = 1 ∧ 0 ≤ s.pos.dot s.rayDir ∧ 401 ≤ s.pos.dot s.pos ∧
  s.t = dt * (s.i : ℝ) ∧ s.hitHorizon = false ∧ s.hitDisk = false

/-- The argument of the sine in `starColor`: `ist.x * 10.0 + ist.y * 5.0`. -/
def starPhase (rayDir : Vec3) : ℝ :=
  (starSt rayDir).floor.x * 10.0 + (starSt rayDir).floor.y * 5.0

/-- The unit direction with azimuth `θ` (the angle `atan(x, z)`) and elevation `φ`. -/
def dirOf (θ φ : ℝ) : Vec3 :=
  ⟨Real.sin θ * Real.cos φ, Real.sin φ, Real.cos θ * Real.cos φ⟩

/-- A direction whose scaled angular coordinates are `(0.5, 0.5)`: the centre of cell `(0,0)`. -/
def starDirA : Vec3 := dirOf 0.01 0.01

/-- A direction whose scaled angular coordinates are `(0.5, 1.5)`: the centre of cell `(0,1)`. -/
def starDirB : Vec3 := dirOf 0.01 0.03

/-- The central ray of the host's initial camera: start `(0,1,5)`, direction `(0,0,-1)`. -/
def hostRay : March := marchFrom ⟨0, 1, 5⟩ ⟨0, 0, -1⟩

/-- Uniforms of a camera placed at the black-hole centre and looking along `-z`. -/
def insideCamera : Uniforms :=
  { iTime := 0, iResolution := ⟨1920, 1080⟩, camPos := ⟨0, 0, 0⟩, camDir := ⟨0, 0, -1⟩,
    camUp := ⟨0, 1, 0⟩, fov := 1.0 }

/-! ## Theorems -/

@[simp]
theorem Vec3.add_x (a b : Vec3) : (a + b).x = a.x + b.x := rfl
@[simp]
theorem Vec3.add_y (a b : Vec3) : (a + b).y = a.y + b.y := rfl
@[simp]
theorem Vec3.add_z (a b : Vec3) : (a + b).z = a.z + b.z := rfl
@[simp]
theorem Vec3.sub_x (a b : Vec3) : (a - b).x = a.x - b.x := rfl
@[simp]
theorem Vec3.sub_y (a b : Vec3) : (a - b).y = a.y - b.y := rfl
@[simp]
theorem Vec3.sub_z (a b : Vec3) : (a - b).z = a.z - b.z := rfl
@[simp]
theorem Vec3.mul_x (a : Vec3) (k : ℝ) : (a * k).x = a.x * k := rfl
@[simp]
theorem Vec3.mul_y (a : Vec3) (k : ℝ) : (a * k).y = a.y * k := rfl
@[simp]
theorem Vec3.mul_z (a : Vec3) (k : ℝ) : (a * k).z = a.z * k := rfl
@[simp]
theorem Vec3.div_x (a : Vec3) (k : ℝ) : (a / k).x = a.x / k := rfl
@[simp]
theorem Vec3.div_y (a : Vec3) (k : ℝ) : (a / k).y = a.y / k := rfl
@[simp]
theorem Vec3.div_z (a : Vec3) (k : ℝ) : (a / k).z = a.z / k := rfl

theorem Vec3.ext_iff3 (a b : Vec3) : a = b ↔ a.x = b.x ∧ a.y = b.y ∧ a.z = b.z := by
  cases a; cases b; simp

theorem Vec3.length_nonneg (v : Vec3) : 0 ≤ v.length := Real.sqrt_nonneg _

theorem Vec3.length_sq (v : Vec3) : v.length * v.length = v.x * v.x + v.y * v.y + v.z * v.z := by
  unfold Vec3.length
  exact Real.mul_self_sqrt (by nlinarith [mul_self_nonneg v.x, mul_self_nonneg v.y, mul_self_nonneg v.z])

theorem Vec3.length_eq_one_iff (v : Vec3) :
    v.length = 1 ↔ v.x * v.x + v.y * v.y + v.z * v.z = 1 := by
  constructor
  · intro h
    have := v.length_sq
    rw [h] at this
    linarith
  · intro h
    unfold Vec3.length
    rw [h, Real.sqrt_one]

theorem Vec3.length_pos_iff (v : Vec3) :
    0 < v.length ↔ 0 < v.x * v.x + v.y * v.y + v.z * v.z := by
  unfold Vec3.length
  exact Real.sqrt_pos

theorem Vec3.length_div (v : Vec3) (k : ℝ) (hk : 0 < k) : (v / k).length = v.length / k := by
  unfold Vec3.length
  simp only [Vec3.div_x, Vec3.div_y, Vec3.div_z]
  have : v.x / k * (v.x / k) + v.y / k * (v.y / k) + v.z / k * (v.z / k)
      = (v.x * v.x + v.y * v.y + v.z * v.z) / (k * k) := by
    field_simp
  rw [this, Real.sqrt_div', Real.sqrt_mul_self hk.le]
  exact mul_self_nonneg k

theorem normalize_length (v : Vec3) (h : 0 < v.length) : (normalize v).length = 1 := by
  unfold normalize
  rw [Vec3.length_div v _ h]
  exact div_self h.ne'

/-- The rotation of `accretionDisk` preserves the radial distance. -/
theorem rotated_length (x z a : ℝ) :
    (⟨x * Real.cos a - z * Real.sin a, x * Real.sin a + z * Real.cos a⟩ : Vec2).length
      = Real.sqrt (x * x + z * z) := by
  unfold Vec2.length
  congr 1
  have h := Real.sin_sq_add_cos_sq a
  simp only
  linear_combination (x * x + z * z) * h

theorem accretionDisk_eq_profile (t : ℝ) (p : Vec3) :
    accretionDisk t p = diskProfile (radial p) |p.y| := by
  unfold accretionDisk diskProfile radial diskInner diskOuter
  simp only [rotated_length]
  norm_num

theorem Vec3.dot_self (v : Vec3) : v.dot v = v.length * v.length := by
  rw [Vec3.length_sq]; rfl

theorem Vec3.length_pos_of_ne (v : Vec3) (h : v ≠ vec3 0) : 0 < v.length := by
  rw [Vec3.length_pos_iff]
  by_contra hn
  apply h
  have hx := mul_self_nonneg v.x
  have hy := mul_self_nonneg v.y
  have hz := mul_self_nonneg v.z
  rw [Vec3.ext_iff3]
  simp only [vec3]
  refine ⟨?_, ?_, ?_⟩ <;> apply mul_self_eq_zero.mp <;> linarith

theorem Vec3.length_eq_one_of_dot (v : Vec3) (h : v.dot v = 1) : v.length = 1 :=
  (Vec3.length_eq_one_iff v).2 h

theorem Vec3.dot_self_of_length (v : Vec3) (h : v.length = 1) : v.dot v = 1 :=
  (Vec3.length_eq_one_iff v).1 h

theorem cross_dot_left (a b : Vec3) : (cross a b).dot a = 0 := by
  simp only [cross, Vec3.dot]; ring

theorem cross_dot_right (a b : Vec3) : (cross a b).dot b = 0 := by
  simp only [cross, Vec3.dot]; ring

theorem cross_dot_self (a b : Vec3) :
    (cross a b).dot (cross a b) = a.dot a * b.dot b - a.dot b * a.dot b := by
  simp only [cross, Vec3.dot]; ring

theorem normalize_dot (v w : Vec3) : (normalize v).dot w = v.dot w / v.length := by
  simp only [normalize, Vec3.dot, Vec3.div_x, Vec3.div_y, Vec3.div_z]; ring

theorem cross_normalize_left (w up : Vec3) :
    cross (normalize w) up = cross w up / w.length := by
  rw [Vec3.ext_iff3]
  simp only [cross, normalize, Vec3.div_x, Vec3.div_y, Vec3.div_z]
  refine ⟨?_, ?_, ?_⟩ <;> ring

theorem Vec3.div_ne_zero (v : Vec3) (k : ℝ) (hk : 0 < k) (h : v ≠ vec3 0) : v / k ≠ vec3 0 := by
  intro hz
  apply h
  rw [Vec3.ext_iff3] at hz ⊢
  simp only [Vec3.div_x, Vec3.div_y, Vec3.div_z, vec3] at hz ⊢
  obtain ⟨h1, h2, h3⟩ := hz
  have hk' := hk.ne'
  refine ⟨?_, ?_, ?_⟩
  · rcases div_eq_zero_iff.mp h1 with h | h
    · exact h
    · exact absurd h hk'
  · rcases div_eq_zero_iff.mp h2 with h | h
    · exact h
    · exact absurd h hk'
  · rcases div_eq_zero_iff.mp h3 with h | h
    · exact h
    · exact absurd h hk'

/-- The basis built by `rayDirection` is orthonormal. -/
theorem cameraBasis_orthonormal (eye center up : Vec3)
    (h1 : center - eye ≠ vec3 0) (h2 : cross (center - eye) up ≠ vec3 0) :
    0 < (center - eye).length ∧ 0 < (cross (normalize (center - eye)) up).length ∧
    (cameraBasis eye center up).1.dot (cameraBasis eye center up).1 = 1 ∧
    (cameraBasis eye center up).2.1.dot (cameraBasis eye center up).2.1 = 1 ∧
    (cameraBasis eye center up).2.2.dot (cameraBasis eye center up).2.2 = 1 ∧
    (cameraBasis eye center up).1.dot (cameraBasis eye center up).2.1 = 0 ∧
    (cameraBasis eye center up).1.dot (cameraBasis eye center up).2.2 = 0 ∧
    (cameraBasis eye center up).2.1.dot (cameraBasis eye center up).2.2 = 0 := by
  have hL : 0 < (center - eye).length := Vec3.length_pos_of_ne _ h1
  have hc : cross (normalize (center - eye)) up ≠ vec3 0 := by
    rw [cross_normalize_left]
    exact Vec3.div_ne_zero _ _ hL h2
  have hM : 0 < (cross (normalize (center - eye)) up).length := Vec3.length_pos_of_ne _ hc
  simp only [cameraBasis]
  set f := normalize (center - eye) with hf
  set s := normalize (cross f up) with hs
  have hff : f.dot f = 1 := Vec3.dot_self_of_length _ (normalize_length _ hL)
  have hss : s.dot s = 1 := Vec3.dot_self_of_length _ (normalize_length _ hM)
  have hsf : s.dot f = 0 := by
    rw [hs, normalize_dot, cross_dot_left, zero_div]
  have hfs : f.dot s = 0 := by
    rw [← hsf]; simp only [Vec3.dot]; ring
  refine ⟨hL, hM, hff, hss, ?_, hfs, ?_, ?_⟩
  · rw [cross_dot_self, hss, hff, hsf]; norm_num
  · have := cross_dot_right s f
    rw [← this]; simp only [Vec3.dot]; ring
  · have := cross_dot_left s f
    rw [← this]; simp only [Vec3.dot]; ring

/-- The vector handed to the last `normalize` of `rayDirection` is not the zero vector. -/
theorem rayDirection_arg_pos (uv : Vec2) (eye center up : Vec3) (fov : ℝ)
    (h1 : center - eye ≠ vec3 0) (h2 : cross (center - eye) up ≠ vec3 0) (hfov : fov ≠ 0) :
    0 < ((cameraBasis eye center up).1 * fov + (cameraBasis eye center up).2.1 * uv.x
        + (cameraBasis eye center up).2.2 * uv.y).length := by
  obtain ⟨_, _, hff, hss, huu, hfs, hfu, hsu⟩ := cameraBasis_orthonormal eye center up h1 h2
  rw [Vec3.length_pos_iff]
  generalize (cameraBasis eye center up).1 = f at *
  generalize (cameraBasis eye center up).2.1 = s at *
  generalize (cameraBasis eye center up).2.2 = u at *
  simp only [Vec3.dot] at hff hss huu hfs hfu hsu
  simp only [Vec3.add_x, Vec3.add_y, Vec3.add_z, Vec3.mul_x, Vec3.mul_y, Vec3.mul_z]
  have e : (f.x * fov + s.x * uv.x + u.x * uv.y) * (f.x * fov + s.x * uv.x + u.x * uv.y) +
      (f.y * fov + s.y * uv.x + u.y * uv.y) * (f.y * fov + s.y * uv.x + u.y * uv.y) +
      (f.z * fov + s.z * uv.x + u.z * uv.y) * (f.z * fov + s.z * uv.x + u.z * uv.y)
      = fov * fov + uv.x * uv.x + uv.y * uv.y := by
    linear_combination (fov * fov) * hff + (uv.x * uv.x) * hss + (uv.y * uv.y) * huu
      + (2 * fov * uv.x) * hfs + (2 * fov * uv.y) * hfu + (2 * uv.x * uv.y) * hsu
  rw [e]
  have := mul_self_pos.mpr hfov
  nlinarith [mul_self_nonneg uv.x, mul_self_nonneg uv.y]

/-- The direction returned by `rayDirection` has length `1`. -/
theorem rayDirection_length (uv : Vec2) (eye center up : Vec3) (fov : ℝ)
    (h1 : center - eye ≠ vec3 0) (h2 : cross (center - eye) up ≠ vec3 0) (hfov : fov ≠ 0) :
    (rayDirection uv eye center up fov).length = 1 :=
  normalize_length _ (rayDirection_arg_pos uv eye center up fov h1 h2 hfov)

/-- Claim C7. `rayDirection` returns a unit vector: for every `uv`, every `eye`, every
`center` with `center - eye` non-zero and not parallel to `up` (`cross (center - eye) up`
non-zero) and every `fov ≠ 0`, the vectors `f, s, u` built by `rayDirection` are
orthonormal, the vector `f*fov + s*uv.x + u*uv.y` is not zero, and the returned direction,
its normalisation, has length exactly `1`. -/
theorem rayDirection_unit (uv : Vec2) (eye center up : Vec3) (fov : ℝ)
    (h1 : center - eye ≠ vec3 0) (h2 : cross (center - eye) up ≠ vec3 0) (hfov : fov ≠ 0) :
    ((cameraBasis eye center up).1.length = 1 ∧
     (cameraBasis eye center up).2.1.length = 1 ∧
     (cameraBasis eye center up).2.2.length = 1 ∧
     (cameraBasis eye center up).1.dot (cameraBasis eye center up).2.1 = 0 ∧
     (cameraBasis eye center up).1.dot (cameraBasis eye center up).2.2 = 0 ∧
     (cameraBasis eye center up).2.1.dot (cameraBasis eye center up).2.2 = 0) ∧
    rayDirection uv eye center up fov =
      normalize ((cameraBasis eye center up).1 * fov + (cameraBasis eye center up).2.1 * uv.x
        + (cameraBasis eye center up).2.2 * uv.y) ∧
    0 < ((cameraBasis eye center up).1 * fov + (cameraBasis eye center up).2.1 * uv.x
        + (cameraBasis eye center up).2.2 * uv.y).length ∧
    (rayDirection uv eye center up fov).length = 1 := by
  obtain ⟨_, _, hff, hss, huu, hfs, hfu, hsu⟩ := cameraBasis_orthonormal eye center up h1 h2
  exact ⟨⟨Vec3.length_eq_one_of_dot _ hff, Vec3.length_eq_one_of_dot _ hss,
    Vec3.length_eq_one_of_dot _ huu, hfs, hfu, hsu⟩, rfl,
    rayDirection_arg_pos uv eye center up fov h1 h2 hfov,
    rayDirection_length uv eye center up fov h1 h2 hfov⟩

theorem cameraUpdate_camDir (k : Keys) (cam : Camera) :
    (cameraUpdate k cam).camDir =
      ⟨Real.sin (cameraUpdate k cam).yaw * Real.cos (cameraUpdate k cam).pitch,
       Real.sin (cameraUpdate k cam).pitch,
       Real.cos (cameraUpdate k cam).yaw * Real.cos (cameraUpdate k cam).pitch⟩ := rfl

theorem cameraUpdate_pitch (k : Keys) (cam : Camera) :
    -1.5 ≤ (cameraUpdate k cam).pitch ∧ (cameraUpdate k cam).pitch ≤ 1.5 := by
  simp only [cameraUpdate]
  split_ifs <;> constructor <;> norm_num at * <;> linarith

theorem lookDir_valid (yaw pitch : ℝ) (h1 : -1.5 ≤ pitch) (h2 : pitch ≤ 1.5) :
    (⟨Real.sin yaw * Real.cos pitch, Real.sin pitch, Real.cos yaw * Real.cos pitch⟩ : Vec3).length
      = 1 ∧
    cross ⟨Real.sin yaw * Real.cos pitch, Real.sin pitch, Real.cos yaw * Real.cos pitch⟩ camUp
      ≠ vec3 0 := by
  have hpi := Real.pi_gt_three
  have hcos : 0 < Real.cos pitch :=
    Real.cos_pos_of_mem_Ioo ⟨by linarith, by linarith⟩
  have hy := Real.sin_sq_add_cos_sq yaw
  have hp := Real.sin_sq_add_cos_sq pitch
  constructor
  · rw [Vec3.length_eq_one_iff]
    simp only
    linear_combination (Real.cos pitch ^ 2) * hy + hp
  · intro hz
    rw [Vec3.ext_iff3] at hz
    simp only [cross, camUp, vec3] at hz
    obtain ⟨hx, _, hzz⟩ := hz
    have e1 : Real.cos yaw * Real.cos pitch = 0 := by linarith
    have e2 : Real.sin yaw * Real.cos pitch = 0 := by linarith
    have e3 : Real.cos yaw = 0 := by
      rcases mul_eq_zero.mp e1 with h | h
      · exact h
      · exact absurd h hcos.ne'
    have e4 : Real.sin yaw = 0 := by
      rcases mul_eq_zero.mp e2 with h | h
      · exact h
      · exact absurd h hcos.ne'
    rw [e3, e4] at hy
    norm_num at hy

theorem add_sub_self (p d : Vec3) : (p + d) - p = d := by
  rw [Vec3.ext_iff3]
  simp only [Vec3.add_x, Vec3.add_y, Vec3.add_z, Vec3.sub_x, Vec3.sub_y, Vec3.sub_z]
  refine ⟨?_, ?_, ?_⟩ <;> ring

/-- Claim C8. Camera pose validity under the pitch clamp: for every sequence `ks` of key
states (run from any host state) and every further frame with key state `k`, after that
frame's camera update the pitch lies in `[-1.5, 1.5]`, the look direction is
`(sin yaw cos pitch, sin pitch, cos yaw cos pitch)`, it is a unit vector, and its cross
product with the up vector `(0,1,0)` is non-zero; so the forward hint
`(camPos + camDir) - camPos` of the ray generator is non-zero and not parallel to up. -/
theorem camera_pose_valid (cam : Camera) (ks : List Keys) (k : Keys) :
    -1.5 ≤ (cameraUpdate k (runFrames cam ks)).pitch ∧
    (cameraUpdate k (runFrames cam ks)).pitch ≤ 1.5 ∧
    (cameraUpdate k (runFrames cam ks)).camDir =
      ⟨Real.sin (cameraUpdate k (runFrames cam ks)).yaw *
          Real.cos (cameraUpdate k (runFrames cam ks)).pitch,
       Real.sin (cameraUpdate k (runFrames cam ks)).pitch,
       Real.cos (cameraUpdate k (runFrames cam ks)).yaw *
          Real.cos (cameraUpdate k (runFrames cam ks)).pitch⟩ ∧
    (cameraUpdate k (runFrames cam ks)).camDir.length = 1 ∧
    cross (cameraUpdate k (runFrames cam ks)).camDir camUp ≠ vec3 0 ∧
    ((cameraUpdate k (runFrames cam ks)).camPos + (cameraUpdate k (runFrames cam ks)).camDir)
      - (cameraUpdate k (runFrames cam ks)).camPos ≠ vec3 0 ∧
    cross (((cameraUpdate k (runFrames cam ks)).camPos
      + (cameraUpdate k (runFrames cam ks)).camDir)
      - (cameraUpdate k (runFrames cam ks)).camPos) camUp ≠ vec3 0 ∧
    runFrames cam (ks ++ [k]) = cameraUpdate k (runFrames cam ks) := by
  obtain ⟨h1, h2⟩ := cameraUpdate_pitch k (runFrames cam ks)
  have hlen : (cameraUpdate k (runFrames cam ks)).camDir.length = 1 := by
    rw [cameraUpdate_camDir]; exact (lookDir_valid _ _ h1 h2).1
  have hcr : cross (cameraUpdate k (runFrames cam ks)).camDir camUp ≠ vec3 0 := by
    rw [cameraUpdate_camDir]; exact (lookDir_valid _ _ h1 h2).2
  refine ⟨h1, h2, rfl, hlen, hcr, ?_, ?_, ?_⟩
  · rw [add_sub_self]
    intro hz
    rw [hz] at hlen
    simp [Vec3.length, vec3] at hlen
  · rw [add_sub_self]; exact hcr
  · simp [runFrames]

theorem length_blackHole_sub (q : Vec3) : (blackHolePos - q).length = q.length := by
  unfold Vec3.length blackHolePos
  simp only [Vec3.sub_x, Vec3.sub_y, Vec3.sub_z]
  congr 1; ring

theorem length_sub_blackHole (q : Vec3) : (q - blackHolePos).length = q.length := by
  unfold Vec3.length blackHolePos
  simp only [Vec3.sub_x, Vec3.sub_y, Vec3.sub_z]
  congr 1; ring

/-- The four ways a pass of the loop body can go. -/
theorem loopBody_cases (iTime : ℝ) (s : March) :
    ((advanced s - blackHolePos).length < horizonRadius ∧
      loopBody iTime s = ({ s with pos := advanced s, hitHorizon := true }, true)) ∨
    (¬ (advanced s - blackHolePos).length < horizonRadius ∧
      accretionDisk iTime (advanced s) > 0 ∧
      loopBody iTime s =
        ({ s with
            pos := advanced s
            color := (⟨1, 0.5, 0⟩ : Vec3) * accretionDisk iTime (advanced s)
            hitDisk := true }, true)) ∨
    (¬ (advanced s - blackHolePos).length < horizonRadius ∧
      ¬ accretionDisk iTime (advanced s) > 0 ∧
      loopBody iTime s =
        ({ s with
            pos := advanced s
            rayDir := if (blackHolePos - advanced s).length > 0.1 then normalize (deflected s)
              else s.rayDir
            t := s.t + dt }, decide (s.t + dt > 100))) := by
  by_cases h1 : (advanced s - blackHolePos).length < horizonRadius
  · left
    refine ⟨h1, ?_⟩
    unfold advanced at h1
    simp only [loopBody, advanced, if_pos h1]
  · right
    by_cases h2 : accretionDisk iTime (advanced s) > 0
    · left
      refine ⟨h1, h2, ?_⟩
      unfold advanced at h1 h2
      have h2' : accretionDisk iTime (s.pos + s.rayDir * dt) > 0.0 := by norm_num; exact h2
      simp only [loopBody, advanced, if_neg h1, if_pos h2']
    · right
      refine ⟨h1, h2, ?_⟩
      unfold advanced at h1 h2
      have h2' : ¬ accretionDisk iTime (s.pos + s.rayDir * dt) > 0.0 := by norm_num; linarith
      simp only [loopBody, advanced, if_neg h1, if_neg h2', deflected, force]
      by_cases h3 : s.t + dt > 100
      · have h3' : s.t + dt > 100.0 := by norm_num; exact h3
        simp only [if_pos h3', decide_eq_true h3]
      · have h3' : ¬ s.t + dt > 100.0 := by norm_num; linarith
        simp only [if_neg h3', decide_eq_false h3]

theorem dist_ge_one (s : March) (h1 : ¬ (advanced s - blackHolePos).length < horizonRadius) :
    1 ≤ (blackHolePos - advanced s).length := by
  rw [length_blackHole_sub]
  rw [length_sub_blackHole] at h1
  unfold horizonRadius at h1
  norm_num at h1
  exact h1

theorem cube_ge_one (d : ℝ) (h : 1 ≤ d) : 1 ≤ d * d * d := by
  have h2 : 1 ≤ d * d := by nlinarith
  nlinarith

/-- Squared length of the deflection increment `force * dt` at distance `≥ 1`. -/
theorem force_dt_dot_self (q : Vec3) (h : 1 ≤ (blackHolePos - q).length) :
    (force q * dt).dot (force q * dt) ≤ 0.0025 := by
  have hD := Vec3.length_sq (blackHolePos - q)
  set D := (blackHolePos - q).length with hDdef
  have hDpos : 0 < D := by linarith
  have h3 : 1 ≤ D * D * D := cube_ge_one D h
  have e : (force q * dt).dot (force q * dt)
      = 0.0025 * ((D * D) / ((D * D * D) * (D * D * D))) := by
    simp only [force, Vec3.dot, Vec3.mul_x, Vec3.mul_y, Vec3.mul_z, Vec3.div_x, Vec3.div_y,
      Vec3.div_z, G, c, dt, ← hDdef]
    rw [hD]
    field_simp
    ring
  rw [e]
  have h4 : D * D / (D * D * D * (D * D * D)) ≤ 1 := by
    rw [div_le_one (by positivity)]
    nlinarith [mul_pos hDpos hDpos]
  linarith

/-- At distance `≥ 1` a unit direction plus the deflection increment is not the zero vector. -/
theorem deflected_length_pos (s : March) (hu : s.rayDir.length = 1)
    (h : 1 ≤ (blackHolePos - advanced s).length) : 0 < (deflected s).length := by
  rw [Vec3.length_pos_iff]
  have hb := force_dt_dot_self (advanced s) h
  unfold advanced at hb
  have hd := (Vec3.length_eq_one_iff _).1 hu
  unfold deflected
  generalize force (s.pos + s.rayDir * dt) * dt = e at *
  have hb' : e.x * e.x + e.y * e.y + e.z * e.z ≤ 0.0025 := hb
  simp only [Vec3.add_x, Vec3.add_y, Vec3.add_z]
  by_contra hn
  have hx := mul_self_nonneg (s.rayDir.x + e.x)
  have hy := mul_self_nonneg (s.rayDir.y + e.y)
  have hz := mul_self_nonneg (s.rayDir.z + e.z)
  have ex : s.rayDir.x + e.x = 0 := mul_self_eq_zero.mp (by linarith)
  have ey : s.rayDir.y + e.y = 0 := mul_self_eq_zero.mp (by linarith)
  have ez : s.rayDir.z + e.z = 0 := mul_self_eq_zero.mp (by linarith)
  have e1 : e.x = -s.rayDir.x := by linarith
  have e2 : e.y = -s.rayDir.y := by linarith
  have e3 : e.z = -s.rayDir.z := by linarith
  rw [e1, e2, e3] at hb'
  norm_num at hb'
  linarith

/-- A pass that reaches the deflection computation replaces `rayDir` by the normalised
deflected direction. -/
theorem loopBody_deflect (iTime : ℝ) (s : March)
    (h1 : ¬ (advanced s - blackHolePos).length < horizonRadius)
    (h2 : ¬ accretionDisk iTime (advanced s) > 0) :
    (loopBody iTime s).1.rayDir = normalize (deflected s) := by
  have hd := dist_ge_one s h1
  have hg : (blackHolePos - advanced s).length > 0.1 := by
    have : (0.1 : ℝ) < 1 := by norm_num
    linarith
  rcases loopBody_cases iTime s with ⟨h, _⟩ | ⟨_, h, _⟩ | ⟨_, _, h⟩
  · exact absurd h h1
  · exact absurd h h2
  · rw [h]
    simp only [if_pos hg]

/-- Claim C10. The singularity guard never blocks and the force division is safe: in every
pass of the loop body, from any state, that reaches the deflection computation (neither the
horizon test nor the disk test fired), `dist = |blackHolePos - pos|` is at least `1`, the
guard `dist > 0.1` holds, the divisor `dist * dist * dist` is at least `1` and not zero, and
the deflection is applied: the new `rayDir` is the normalised `rayDir + force * dt`. -/
theorem deflection_guard (iTime : ℝ) (s : March)
    (h1 : ¬ (advanced s - blackHolePos).length < horizonRadius)
    (h2 : ¬ accretionDisk iTime (advanced s) > 0) :
    1 ≤ (blackHolePos - advanced s).length ∧
    (blackHolePos - advanced s).length > 0.1 ∧
    1 ≤ (blackHolePos - advanced s).length * (blackHolePos - advanced s).length
          * (blackHolePos - advanced s).length ∧
    (blackHolePos - advanced s).length * (blackHolePos - advanced s).length
          * (blackHolePos - advanced s).length ≠ 0 ∧
    (loopBody iTime s).1.rayDir =
      normalize (s.rayDir + ((blackHolePos - advanced s)
        / ((blackHolePos - advanced s).length * (blackHolePos - advanced s).length
            * (blackHolePos - advanced s).length) * G / (c * c)) * dt) := by
  have hd := dist_ge_one s h1
  have h3 := cube_ge_one _ hd
  have hg : (blackHolePos - advanced s).length > 0.1 := by
    have : (0.1 : ℝ) < 1 := by norm_num
    linarith
  refine ⟨hd, hg, h3, by linarith, ?_⟩
  rw [loopBody_deflect iTime s h1 h2]
  rfl

theorem loopBody_rayDir_length (iTime : ℝ) (s : March) (hu : s.rayDir.length = 1) :
    (loopBody iTime s).1.rayDir.length = 1 := by
  rcases loopBody_cases iTime s with ⟨_, h⟩ | ⟨_, _, h⟩ | ⟨h1, _, h⟩
  · rw [h]; exact hu
  · rw [h]; exact hu
  · rw [h]
    simp only
    split_ifs
    · exact normalize_length _ (deflected_length_pos s hu (dist_ge_one s h1))
    · exact hu

theorem forLoop_rayDir_length (iTime : ℝ) (fuel : ℕ) :
    ∀ s : March, s.rayDir.length = 1 → (forLoop iTime fuel s).rayDir.length = 1 := by
  induction fuel with
  | zero => intro s hu; exact hu
  | succ n ih =>
    intro s hu
    simp only [forLoop]
    split_ifs with h1 h2
    · exact loopBody_rayDir_length iTime s hu
    · exact ih _ (loopBody_rayDir_length iTime s hu)
    · exact hu

theorem iterStart_rayDir_length (iTime : ℝ) (k : ℕ) :
    ∀ s0 s : March, s0.rayDir.length = 1 → iterStart iTime k s0 = some s →
      s.rayDir.length = 1 := by
  induction k with
  | zero =>
    intro s0 s hu h
    simp only [iterStart] at h
    split_ifs at h
    cases h
    exact hu
  | succ n ih =>
    intro s0 s hu h
    simp only [iterStart] at h
    split_ifs at h with h1 h2
    refine ih _ s ?_ h
    exact loopBody_rayDir_length iTime s0 hu

/-- Claim C1. Renormalisation invariant of the integrator loop: when the initial direction
has length `1`, the direction has length `1` after the loop run with any bound on the
number of passes, at the start of every pass that is reached and after every pass; and at
every deflection update that is reached `rayDir + force * dt` is not the zero vector and
the updated direction is its normalisation. -/
theorem renormalization_invariant (iTime : ℝ) (s0 : March) (hu : s0.rayDir.length = 1) :
    (∀ fuel : ℕ, (forLoop iTime fuel s0).rayDir.length = 1) ∧
    (∀ (k : ℕ) (s : March), iterStart iTime k s0 = some s →
      s.rayDir.length = 1 ∧
      (loopBody iTime s).1.rayDir.length = 1 ∧
      (¬ (advanced s - blackHolePos).length < horizonRadius →
       ¬ accretionDisk iTime (advanced s) > 0 →
        deflected s ≠ vec3 0 ∧ 0 < (deflected s).length ∧
        (loopBody iTime s).1.rayDir = normalize (deflected s))) := by
  refine ⟨fun fuel => forLoop_rayDir_length iTime fuel s0 hu, ?_⟩
  intro k s hs
  have hsu := iterStart_rayDir_length iTime k s0 s hu hs
  refine ⟨hsu, loopBody_rayDir_length iTime s hsu, ?_⟩
  intro h1 h2
  have hpos := deflected_length_pos s hsu (dist_ge_one s h1)
  refine ⟨?_, hpos, ?_⟩
  · intro hz
    rw [hz] at hpos
    simp [Vec3.length, vec3] at hpos
  · exact loopBody_deflect iTime s h1 h2

theorem loopBody_i (iTime : ℝ) (s : March) : (loopBody iTime s).1.i = s.i := by
  rcases loopBody_cases iTime s with ⟨_, h⟩ | ⟨_, _, h⟩ | ⟨_, _, h⟩ <;> rw [h]

/-- A pass that does not leave through a `break` keeps both flags and the colour. -/
theorem loopBody_running (iTime : ℝ) (s : March) (h : (loopBody iTime s).2 = false) :
    (loopBody iTime s).1.hitHorizon = s.hitHorizon ∧
    (loopBody iTime s).1.hitDisk = s.hitDisk ∧
    (loopBody iTime s).1.color = s.color := by
  rcases loopBody_cases iTime s with ⟨_, e⟩ | ⟨_, _, e⟩ | ⟨_, _, e⟩
  · rw [e] at h; simp at h
  · rw [e] at h; simp at h
  · rw [e]; exact ⟨rfl, rfl, rfl⟩

theorem iterStart_props (iTime : ℝ) (k : ℕ) :
    ∀ s0 s : March, iterStart iTime k s0 = some s →
      s.i = s0.i + k ∧ s.i < 1000 ∧ s.hitHorizon = s0.hitHorizon ∧ s.hitDisk = s0.hitDisk ∧
      s.color = s0.color := by
  induction k with
  | zero =>
    intro s0 s h
    simp only [iterStart] at h
    split_ifs at h with h1
    cases h
    exact ⟨rfl, h1, rfl, rfl, rfl⟩
  | succ n ih =>
    intro s0 s h
    simp only [iterStart] at h
    split_ifs at h with h1 h2
    obtain ⟨a, b, c1, d, e⟩ := ih _ s h
    have hb : (loopBody iTime s0).2 = false := by simpa using h2
    obtain ⟨f1, f2, f3⟩ := loopBody_running iTime s0 hb
    simp only at a c1 d e
    refine ⟨?_, b, c1.trans f1, d.trans f2, e.trans f3⟩
    rw [a, loopBody_i]; ring

theorem forLoop_of_iterStart (iTime : ℝ) (k : ℕ) :
    ∀ (s0 s : March) (fuel : ℕ), iterStart iTime k s0 = some s →
      forLoop iTime (k + fuel) s0 = forLoop iTime fuel s := by
  induction k with
  | zero =>
    intro s0 s fuel h
    simp only [iterStart] at h
    split_ifs at h
    cases h
    simp
  | succ n ih =>
    intro s0 s fuel h
    simp only [iterStart] at h
    split_ifs at h with h1 h2
    have e : n + 1 + fuel = (n + fuel) + 1 := by ring
    rw [e]
    simp only [forLoop, if_pos h1, if_neg h2]
    exact ih _ s fuel h

/-- The loop leaves at the pass whose body takes a `break`. -/
theorem forLoop_break (iTime : ℝ) (k : ℕ) (s0 s : March) (fuel : ℕ)
    (h : iterStart iTime k s0 = some s) (hb : (loopBody iTime s).2 = true) :
    forLoop iTime (k + (fuel + 1)) s0 = (loopBody iTime s).1 := by
  rw [forLoop_of_iterStart iTime k s0 s (fuel + 1) h]
  have hi := (iterStart_props iTime k s0 s h).2.1
  simp only [forLoop, if_pos hi, hb, if_true]

/-- The loop run with the shader's bound leaves at the pass whose body takes a `break`. -/
theorem forLoop_break_1000 (iTime : ℝ) (k : ℕ) (s0 s : March) (h0 : s0.i = 0)
    (h : iterStart iTime k s0 = some s) (hb : (loopBody iTime s).2 = true) :
    forLoop iTime 1000 s0 = (loopBody iTime s).1 := by
  obtain ⟨a, b, _⟩ := iterStart_props iTime k s0 s h
  rw [h0] at a
  have hk : k < 1000 := by omega
  have e : 1000 = k + ((999 - k) + 1) := by omega
  rw [e]
  exact forLoop_break iTime k s0 s _ h hb

/-- The bound on the number of passes is never what stops the loop: once the bound covers
the passes left until the counter reaches `1000`, a larger bound gives the same result. -/
theorem forLoop_fuel_stable (iTime : ℝ) (fuel : ℕ) :
    ∀ (s : March) (m : ℕ), 1000 ≤ s.i + fuel →
      forLoop iTime (fuel + m) s = forLoop iTime fuel s := by
  induction fuel with
  | zero =>
    intro s m h
    cases m with
    | zero => rfl
    | succ k =>
      have hi : ¬ s.i < 1000 := by omega
      simp only [Nat.zero_add, forLoop, if_neg hi]
  | succ n ih =>
    intro s m h
    have e : n + 1 + m = (n + m) + 1 := by ring
    rw [e]
    simp only [forLoop]
    by_cases hi : s.i < 1000
    · simp only [if_pos hi]
      by_cases hb : (loopBody iTime s).2 = true
      · simp only [hb, if_true]
      · simp only [hb]
        apply ih
        have := loopBody_i iTime s
        simp only
        omega
    · simp only [if_neg hi]

theorem initMarch_eq (U : Uniforms) (TexCoords : Vec2) :
    initMarch U TexCoords =
      marchFrom U.camPos (rayDirection
        ⟨((TexCoords - (0.5 : ℝ)) * (2.0 : ℝ)).x * (U.iResolution.x / U.iResolution.y),
         ((TexCoords - (0.5 : ℝ)) * (2.0 : ℝ)).y⟩
        U.camPos (U.camPos + U.camDir) U.camUp U.fov) := by
  simp only [initMarch, marchFrom]

/-- Claim C2. Horizon capture has priority and yields opaque black: for all uniforms (camera
pose and time) and every pixel, if pass number `k` of the loop is reached (no earlier pass
left the loop) and its advanced position is closer than `1.0` to the black hole, then that
pass leaves through the horizon `break`, the loop ends there with counter `k`, with
`hitHorizon` set and `hitDisk` clear, the classification is `Horizon` and the fragment
colour is exactly `(0,0,0,1)`; the value of `accretionDisk` there plays no part. -/
theorem horizon_priority (U : Uniforms) (TexCoords : Vec2) (k : ℕ) (s : March)
    (hs : iterStart U.iTime k (initMarch U TexCoords) = some s)
    (hr : (advanced s - blackHolePos).length < 1.0) :
    loopBody U.iTime s = ({ s with pos := advanced s, hitHorizon := true }, true) ∧
    forLoop U.iTime 1000 (initMarch U TexCoords)
      = { s with pos := advanced s, hitHorizon := true } ∧
    (forLoop U.iTime 1000 (initMarch U TexCoords)).i = k ∧
    (forLoop U.iTime 1000 (initMarch U TexCoords)).hitHorizon = true ∧
    (forLoop U.iTime 1000 (initMarch U TexCoords)).hitDisk = false ∧
    classify (forLoop U.iTime 1000 (initMarch U TexCoords)) = Classification.Horizon ∧
    fragMain U TexCoords = ⟨0, 0, 0, 1⟩ := by
  have hr' : (advanced s - blackHolePos).length < horizonRadius := hr
  have hbody : loopBody U.iTime s = ({ s with pos := advanced s, hitHorizon := true }, true) := by
    rcases loopBody_cases U.iTime s with ⟨_, h⟩ | ⟨h, _⟩ | ⟨h, _⟩
    · exact h
    · exact absurd hr' h
    · exact absurd hr' h
  have h0 : (initMarch U TexCoords).i = 0 := rfl
  have hfin := forLoop_break_1000 U.iTime k _ s h0 hs (by rw [hbody])
  rw [hbody] at hfin
  obtain ⟨a, _, _, d, _⟩ := iterStart_props U.iTime k _ s hs
  have hd : s.hitDisk = false := d
  have hi : s.i = k := by rw [a, h0]; simp
  refine ⟨hbody, hfin, ?_, ?_, ?_, ?_, ?_⟩
  · rw [hfin]; exact hi
  · rw [hfin]
  · rw [hfin]; exact hd
  · rw [hfin]; simp [classify, hd]
  · unfold fragMain
    rw [hfin]
    simp [shade, hd]

/-- A property kept by every pass that does not break is kept to the end of the loop,
which then leaves through the counter test. -/
theorem forLoop_invariant (iTime : ℝ) (P : March → Prop)
    (hstep : ∀ s, P s → s.i < 1000 → (loopBody iTime s).2 = false ∧
      P { (loopBody iTime s).1 with i := (loopBody iTime s).1.i + 1 }) (fuel : ℕ) :
    ∀ s : March, P s → s.i ≤ 1000 → 1000 - s.i ≤ fuel →
      P (forLoop iTime fuel s) ∧ (forLoop iTime fuel s).i = 1000 := by
  induction fuel with
  | zero =>
    intro s hP h1 h2
    simp only [forLoop]
    exact ⟨hP, by omega⟩
  | succ n ih =>
    intro s hP h1 h2
    simp only [forLoop]
    by_cases hi : s.i < 1000
    · obtain ⟨hb, hP'⟩ := hstep s hP hi
      simp only [if_pos hi, hb]
      have hi' := loopBody_i iTime s
      apply ih _ hP'
      · simp only; omega
      · simp only; omega
    · simp only [if_neg hi]
      exact ⟨hP, by omega⟩

/-- When every pass with counter below `M` keeps the property and does not break, every pass
up to number `M` is reached. -/
theorem iterStart_invariant (iTime : ℝ) (P : March → Prop) (M : ℕ)
    (hstep : ∀ s, P s → s.i < M → s.i < 1000 → (loopBody iTime s).2 = false ∧
      P { (loopBody iTime s).1 with i := (loopBody iTime s).1.i + 1 }) (k : ℕ) :
    ∀ s0 : March, P s0 → s0.i + k ≤ M → s0.i + k < 1000 →
      ∃ s, iterStart iTime k s0 = some s ∧ P s := by
  induction k with
  | zero =>
    intro s0 hP _ h
    refine ⟨s0, ?_, hP⟩
    simp only [iterStart]
    rw [if_pos (by omega)]
  | succ n ih =>
    intro s0 hP hM h
    have hi : s0.i < 1000 := by omega
    obtain ⟨hb, hP'⟩ := hstep s0 hP (by omega) hi
    have hi' := loopBody_i iTime s0
    obtain ⟨s, hs, hPs⟩ := ih _ hP' (by simp only; omega) (by simp only; omega)
    refine ⟨s, ?_, hPs⟩
    simp only [iterStart, if_pos hi, hb]
    exact hs

theorem radial_sq (q : Vec3) : radial q * radial q = q.x * q.x + q.z * q.z := by
  unfold radial
  exact Real.mul_self_sqrt (by nlinarith [mul_self_nonneg q.x, mul_self_nonneg q.z])

theorem radial_nonneg (q : Vec3) : 0 ≤ radial q := Real.sqrt_nonneg _

/-- Far from the origin the disk is unlit. -/
theorem accretionDisk_far (iTime : ℝ) (q : Vec3) (h : 401 ≤ q.dot q) :
    accretionDisk iTime q = 0 := by
  rw [accretionDisk_eq_profile]
  unfold diskProfile
  rw [if_neg]
  rintro ⟨_, h2, h3⟩
  have hr := radial_sq q
  have hr0 := radial_nonneg q
  have hy : q.y * q.y < 0.01 := by
    have := abs_nonneg q.y
    have e : q.y * q.y = |q.y| * |q.y| := (abs_mul_abs_self q.y).symm
    rw [e]
    nlinarith
  have hxz : q.x * q.x + q.z * q.z < 16 := by
    rw [← hr]; nlinarith
  simp only [Vec3.dot] at h
  linarith

theorem length_ge_one_of_dot (q : Vec3) (h : 1 ≤ q.dot q) : 1 ≤ q.length := by
  by_contra hn
  push_neg at hn
  have h0 := q.length_nonneg
  have := q.dot_self
  nlinarith

theorem advanced_dot_self (s : March) :
    (advanced s).dot (advanced s)
      = s.pos.dot s.pos + 2 * dt * s.pos.dot s.rayDir + dt * dt * s.rayDir.dot s.rayDir := by
  simp only [advanced, Vec3.dot, Vec3.add_x, Vec3.add_y, Vec3.add_z, Vec3.mul_x, Vec3.mul_y,
    Vec3.mul_z]
  ring

/-- The advanced position dotted with the deflected direction. -/
theorem advanced_dot_deflected (s : March) (hD : 0 < (advanced s).length) :
    (advanced s).dot (deflected s)
      = s.pos.dot s.rayDir + dt * s.rayDir.dot s.rayDir - dt / (advanced s).length := by
  have hq := Vec3.length_sq (advanced s)
  have hl := length_blackHole_sub (advanced s)
  have e : deflected s = s.rayDir + force (advanced s) * dt := rfl
  rw [e]
  simp only [force, hl]
  generalize (advanced s).length = D at *
  have hq' : (advanced s).x * (advanced s).x + (advanced s).y * (advanced s).y
      + (advanced s).z * (advanced s).z = D * D := hq.symm
  have hx : (advanced s).x = s.pos.x + s.rayDir.x * dt := rfl
  have hy : (advanced s).y = s.pos.y + s.rayDir.y * dt := rfl
  have hz : (advanced s).z = s.pos.z + s.rayDir.z * dt := rfl
  simp only [Vec3.dot, Vec3.add_x, Vec3.add_y, Vec3.add_z, Vec3.mul_x, Vec3.mul_y,
    Vec3.mul_z, Vec3.div_x, Vec3.div_y, Vec3.div_z, Vec3.sub_x, Vec3.sub_y, Vec3.sub_z,
    blackHolePos, G, c]
  have hne : D ≠ 0 := hD.ne'
  have key : (advanced s).x * ((0 - (advanced s).x) / (D * D * D) * 1.0 / (1.0 * 1.0) * dt)
      + (advanced s).y * ((0 - (advanced s).y) / (D * D * D) * 1.0 / (1.0 * 1.0) * dt)
      + (advanced s).z * ((0 - (advanced s).z) / (D * D * D) * 1.0 / (1.0 * 1.0) * dt)
      = - dt / D := by
    have : (advanced s).x * ((0 - (advanced s).x) / (D * D * D) * 1.0 / (1.0 * 1.0) * dt)
      + (advanced s).y * ((0 - (advanced s).y) / (D * D * D) * 1.0 / (1.0 * 1.0) * dt)
      + (advanced s).z * ((0 - (advanced s).z) / (D * D * D) * 1.0 / (1.0 * 1.0) * dt)
      = - ((advanced s).x * (advanced s).x + (advanced s).y * (advanced s).y
      + (advanced s).z * (advanced s).z) * dt / (D * D * D) := by
      field_simp
      ring
    rw [this, hq']
    field_simp
    ring
  rw [hx, hy, hz] at key ⊢
  linear_combination key

/-- One pass of the loop along a receding ray: no test fires and the ray stays receding. -/
theorem receding_step (iTime : ℝ) (s : March) (hR : Receding s) (hi : s.i < 1000) :
    (¬ (advanced s - blackHolePos).length < horizonRadius ∧
     ¬ accretionDisk iTime (advanced s) > 0 ∧
     ¬ s.t + dt > 100) ∧
    (loopBody iTime s).2 = false ∧
    Receding { (loopBody iTime s).1 with i := (loopBody iTime s).1.i + 1 } := by
  obtain ⟨hdd, hpd, hpp, ht, hH, hK⟩ := hR
  have hdt : dt = 0.05 := rfl
  have hqq : 401 ≤ (advanced s).dot (advanced s) := by
    rw [advanced_dot_self, hdd, hdt]
    nlinarith
  have hlen : 1 ≤ (advanced s).length := length_ge_one_of_dot _ (by linarith)
  have h1 : ¬ (advanced s - blackHolePos).length < horizonRadius := by
    rw [length_sub_blackHole]
    unfold horizonRadius
    norm_num
    exact hlen
  have h2 : ¬ accretionDisk iTime (advanced s) > 0 := by
    rw [accretionDisk_far iTime _ hqq]
    norm_num
  have hile : (s.i : ℝ) + 1 ≤ 1000 := by
    have : s.i + 1 ≤ 1000 := hi
    exact_mod_cast this
  have h3 : ¬ s.t + dt > 100 := by
    rw [ht, hdt]
    norm_num
    nlinarith
  have hu : s.rayDir.length = 1 := Vec3.length_eq_one_of_dot _ hdd
  have hpos := deflected_length_pos s hu (dist_ge_one s h1)
  have hdefl := loopBody_deflect iTime s h1 h2
  rcases loopBody_cases iTime s with ⟨h, _⟩ | ⟨_, h, _⟩ | ⟨_, _, h⟩
  · exact absurd h h1
  · exact absurd h h2
  · refine ⟨⟨h1, h2, h3⟩, ?_, ?_⟩
    · rw [h]; simp only [decide_eq_false h3]
    · have hr : (loopBody iTime s).1.rayDir = normalize (deflected s) := hdefl
      have hp : (loopBody iTime s).1.pos = advanced s := by rw [h]
      have htt : (loopBody iTime s).1.t = s.t + dt := by rw [h]
      have hh : (loopBody iTime s).1.hitHorizon = s.hitHorizon := by rw [h]
      have hk : (loopBody iTime s).1.hitDisk = s.hitDisk := by rw [h]
      have hii : (loopBody iTime s).1.i = s.i := by rw [h]
      unfold Receding
      simp only [hr, hp, htt, hh, hk, hii]
      refine ⟨Vec3.dot_self_of_length _ (normalize_length _ hpos), ?_, hqq, ?_, hH, hK⟩
      · have e : (advanced s).dot (normalize (deflected s))
            = (advanced s).dot (deflected s) / (deflected s).length := by
          simp only [normalize, Vec3.dot, Vec3.div_x, Vec3.div_y, Vec3.div_z]; ring
        rw [e, advanced_dot_deflected s (by linarith), hdd]
        apply div_nonneg _ hpos.le
        have : dt / (advanced s).length ≤ dt := by
          rw [div_le_iff₀ (by linarith)]
          rw [hdt]; nlinarith
        linarith
      · rw [ht]; push_cast; ring

theorem escapeRay_receding : Receding escapeRay := by
  unfold Receding escapeRay marchFrom
  simp only [Vec3.dot]
  norm_num

/-- Everything the loop does along `escapeRay`. -/
theorem escapeRay_run (iTime : ℝ) :
    (∀ k : ℕ, k < 1000 → ∃ s, iterStart iTime k escapeRay = some s ∧
      ¬ (advanced s - blackHolePos).length < horizonRadius ∧
      ¬ accretionDisk iTime (advanced s) > 0 ∧
      ¬ s.t + dt > 100 ∧ (loopBody iTime s).2 = false) ∧
    Receding (forLoop iTime 1000 escapeRay) ∧ (forLoop iTime 1000 escapeRay).i = 1000 := by
  have hstep : ∀ s, Receding s → s.i < 1000 → (loopBody iTime s).2 = false ∧
      Receding { (loopBody iTime s).1 with i := (loopBody iTime s).1.i + 1 } :=
    fun s hR hi => (receding_step iTime s hR hi).2
  constructor
  · intro k hk
    obtain ⟨s, hs, hR⟩ := iterStart_invariant iTime Receding 1000
      (fun s hR hi _ => hstep s hR hi) k escapeRay
      escapeRay_receding (by simp [escapeRay, marchFrom]; omega)
      (by simp [escapeRay, marchFrom]; exact hk)
    have hi := (iterStart_props iTime k _ s hs).2.1
    obtain ⟨⟨a, b, c1⟩, d, _⟩ := receding_step iTime s hR hi
    exact ⟨s, hs, a, b, c1, d⟩
  · exact forLoop_invariant iTime Receding hstep 1000 escapeRay escapeRay_receding
      (by simp [escapeRay, marchFrom]) (by simp)

/-- Claim C5, as amended. For the ray with start `(0,1,20)` and direction `(0,1,0)`, at every
time value, each of the `1000` passes is reached, in none of them the horizon condition,
the disk condition or the path-length test `t > 100.0` holds, and the loop ends through
its counter test (`i = 1000`, `t = 50`) with classification `Escape`, shaded by the
starfield branch. -/
theorem escape_ray_step_cap (iTime : ℝ) :
    (∀ k : ℕ, k < 1000 → ∃ s, iterStart iTime k escapeRay = some s ∧
      ¬ (advanced s - blackHolePos).length < horizonRadius ∧
      ¬ accretionDisk iTime (advanced s) > 0 ∧
      ¬ s.t + dt > 100 ∧ (loopBody iTime s).2 = false) ∧
    (forLoop iTime 1000 escapeRay).i = 1000 ∧
    (forLoop iTime 1000 escapeRay).t = 50 ∧
    (forLoop iTime 1000 escapeRay).hitHorizon = false ∧
    (forLoop iTime 1000 escapeRay).hitDisk = false ∧
    classify (forLoop iTime 1000 escapeRay) = Classification.Escape ∧
    shade (forLoop iTime 1000 escapeRay) = starfield (forLoop iTime 1000 escapeRay).rayDir := by
  obtain ⟨h1, ⟨_, _, _, ht, hH, hK⟩, hi⟩ := escapeRay_run iTime
  refine ⟨h1, hi, ?_, hH, hK, ?_, ?_⟩
  · rw [ht, hi]; norm_num [dt]
  · simp [classify, hH, hK]
  · simp [shade, hH, hK]

/-- Claim C5 as stated fails at time `0`: along `escapeRay` the test `t > 100.0` is false in
every pass that is reached, the loop ends with `i = 1000`, and `t > 100.0` is false after
the loop. -/
theorem escape_ray_not_path_cap :
    (∀ (k : ℕ) (s : March), iterStart 0 k escapeRay = some s → ¬ s.t + dt > 100.0) ∧
    ¬ (forLoop 0 1000 escapeRay).t > 100.0 ∧
    (forLoop 0 1000 escapeRay).i = 1000 := by
  obtain ⟨h1, ⟨_, _, _, ht, _, _⟩, hi⟩ := escapeRay_run 0
  refine ⟨?_, ?_, hi⟩
  · intro k s hs
    obtain ⟨a, b, _⟩ := iterStart_props 0 k _ s hs
    have hk : k < 1000 := by
      have : escapeRay.i = 0 := rfl
      omega
    obtain ⟨s', hs', _, _, h3, _⟩ := h1 k hk
    rw [hs] at hs'
    cases hs'
    norm_num
    linarith
  · rw [ht, hi]; norm_num [dt]

theorem Vec3.length_mul (u : Vec3) (k : ℝ) : (u * k).length = |k| * u.length := by
  unfold Vec3.length
  simp only [Vec3.mul_x, Vec3.mul_y, Vec3.mul_z]
  have e : u.x * k * (u.x * k) + u.y * k * (u.y * k) + u.z * k * (u.z * k)
      = (k * k) * (u.x * u.x + u.y * u.y + u.z * u.z) := by ring
  rw [e, Real.sqrt_mul (mul_self_nonneg k), Real.sqrt_mul_self_eq_abs]

@[simp]
theorem Vec3.smul_x (k : ℝ) (a : Vec3) : (k * a).x = k * a.x := rfl
@[simp]
theorem Vec3.smul_y (k : ℝ) (a : Vec3) : (k * a).y = k * a.y := rfl
@[simp]
theorem Vec3.smul_z (k : ℝ) (a : Vec3) : (k * a).z = k * a.z := rfl
@[simp]
theorem Vec3.addr_x (a : Vec3) (k : ℝ) : (a + k).x = a.x + k := rfl
@[simp]
theorem Vec3.addr_y (a : Vec3) (k : ℝ) : (a + k).y = a.y + k := rfl
@[simp]
theorem Vec3.addr_z (a : Vec3) (k : ℝ) : (a + k).z = a.z + k := rfl

theorem starfield_x (d : Vec3) :
    (starfield d).x = starIntensity d * (0.9 + 0.1 * Real.sin (starPhase d)) := by
  simp only [starfield, vec4, vec3, starColor, starPhase, Vec3.add_x, Vec3.smul_x, Vec3.addr_x]
  norm_num

theorem starfield_y (d : Vec3) :
    (starfield d).y = starIntensity d * (0.95 + 0.1 * Real.sin (starPhase d)) := by
  simp only [starfield, vec4, vec3, starColor, starPhase, Vec3.add_y, Vec3.smul_y, Vec3.addr_y]
  norm_num

theorem starfield_z (d : Vec3) :
    (starfield d).z = starIntensity d * (1 + 0.1 * Real.sin (starPhase d)) := by
  simp only [starfield, vec4, vec3, starColor, starPhase, Vec3.add_z, Vec3.smul_z, Vec3.addr_z]
  norm_num

theorem starfield_w (d : Vec3) : (starfield d).w = 1 := rfl

theorem Vec4.ext_iff4 (a b : Vec4) :
    a = b ↔ a.x = b.x ∧ a.y = b.y ∧ a.z = b.z ∧ a.w = b.w := by
  cases a; cases b; simp

/-- Two directions with the same star intensity have the same colour exactly when the
intensity is zero or the tints agree. -/
theorem starfield_eq_iff (d1 d2 : Vec3) (h : starIntensity d1 = starIntensity d2) :
    starfield d1 = starfield d2 ↔
      starIntensity d1 = 0 ∨ Real.sin (starPhase d1) = Real.sin (starPhase d2) := by
  rw [Vec4.ext_iff4, starfield_x, starfield_y, starfield_z, starfield_x, starfield_y,
    starfield_z, starfield_w, starfield_w, ← h]
  constructor
  · rintro ⟨hx, _, _, _⟩
    by_cases h0 : starIntensity d1 = 0
    · exact Or.inl h0
    · right
      have := mul_left_cancel₀ h0 hx
      linarith
  · rintro (h0 | hs)
    · rw [h0]; simp
    · rw [hs]; simp

theorem starIntensity_congr (d1 d2 : Vec3) (h : (starSt d1).fract = (starSt d2).fract) :
    starIntensity d1 = starIntensity d2 := by
  unfold starIntensity
  rw [h]

/-- Claim C6, as amended. Starfield periodicity: two escape directions whose scaled angular
coordinates have the same fractional part have the same star intensity; their output
colours are equal exactly when that intensity is `0` or the tint terms
`sin(ist.x * 10 + ist.y * 5)` of their cells agree, in particular when they lie in the same
cell. -/
theorem starfield_periodic (d1 d2 : Vec3) (h : (starSt d1).fract = (starSt d2).fract) :
    starIntensity d1 = starIntensity d2 ∧
    (starfield d1 = starfield d2 ↔
      starIntensity d1 = 0 ∨ Real.sin (starPhase d1) = Real.sin (starPhase d2)) ∧
    ((starSt d1).floor = (starSt d2).floor → starfield d1 = starfield d2) := by
  have hs := starIntensity_congr d1 d2 h
  refine ⟨hs, starfield_eq_iff d1 d2 hs, ?_⟩
  intro hf
  rw [starfield_eq_iff d1 d2 hs]
  right
  unfold starPhase
  rw [hf]

theorem dirOf_length (θ φ : ℝ) : (dirOf θ φ).length = 1 := by
  rw [Vec3.length_eq_one_iff]
  have hy := Real.sin_sq_add_cos_sq θ
  have hp := Real.sin_sq_add_cos_sq φ
  simp only [dirOf]
  linear_combination (Real.cos φ ^ 2) * hy + hp

theorem atan_dirOf (θ φ : ℝ) (h1 : -Real.pi < θ) (h2 : θ ≤ Real.pi) (hc : 0 < Real.cos φ) :
    atan (dirOf θ φ).x (dirOf θ φ).z = θ := by
  unfold atan dirOf
  have e : (⟨Real.cos θ * Real.cos φ, Real.sin θ * Real.cos φ⟩ : ℂ)
      = (Real.cos φ : ℂ) * (Complex.cos θ + Complex.sin θ * Complex.I) := by
    apply Complex.ext
    · simp [← Complex.ofReal_cos, ← Complex.ofReal_sin]
      ring
    · simp [← Complex.ofReal_cos, ← Complex.ofReal_sin]
      ring
  simp only
  rw [e]
  exact Complex.arg_mul_cos_add_sin_mul_I hc ⟨h1, h2⟩

theorem starSt_dirOf (θ φ : ℝ) (h1 : -Real.pi < θ) (h2 : θ ≤ Real.pi)
    (h3 : -(Real.pi / 2) < φ) (h4 : φ < Real.pi / 2) :
    starSt (dirOf θ φ) = ⟨θ * 50, φ * 50⟩ := by
  have hc : 0 < Real.cos φ := Real.cos_pos_of_mem_Ioo ⟨h3, h4⟩
  unfold starSt
  rw [atan_dirOf θ φ h1 h2 hc]
  have : asin (dirOf θ φ).y = φ := by
    unfold asin dirOf
    exact Real.arcsin_sin h3.le h4.le
  rw [this]
  show (⟨θ * (50.0 : ℝ), φ * (50.0 : ℝ)⟩ : Vec2) = _
  norm_num

theorem starSt_A : starSt starDirA = ⟨0.5, 0.5⟩ := by
  have hpi := Real.pi_gt_three
  unfold starDirA
  rw [starSt_dirOf _ _ (by linarith) (by linarith) (by linarith) (by linarith)]
  norm_num

theorem starSt_B : starSt starDirB = ⟨0.5, 1.5⟩ := by
  have hpi := Real.pi_gt_three
  unfold starDirB
  rw [starSt_dirOf _ _ (by linarith) (by linarith) (by linarith) (by linarith)]
  norm_num

theorem floor_half : ⌊(0.5 : ℝ)⌋ = 0 := by
  rw [Int.floor_eq_iff]; norm_num

theorem floor_three_halves : ⌊(1.5 : ℝ)⌋ = 1 := by
  rw [Int.floor_eq_iff]; norm_num

theorem starMinDist_centre : starMinDist ⟨0.5, 0.5⟩ = 0 := by
  unfold starMinDist
  simp only [List.foldl]
  have h0 : ((⟨((0 : ℤ) : ℝ), ((0 : ℤ) : ℝ)⟩ : Vec2) + vec2 0.5 - ⟨0.5, 0.5⟩).length = 0 := by
    show Real.sqrt _ = 0
    have : (((0 : ℤ) : ℝ) + 0.5 - 0.5) * (((0 : ℤ) : ℝ) + 0.5 - 0.5)
        + (((0 : ℤ) : ℝ) + 0.5 - 0.5) * (((0 : ℤ) : ℝ) + 0.5 - 0.5) = 0 := by norm_num
    show Real.sqrt ((((0 : ℤ) : ℝ) + 0.5 - 0.5) * (((0 : ℤ) : ℝ) + 0.5 - 0.5)
        + (((0 : ℤ) : ℝ) + 0.5 - 0.5) * (((0 : ℤ) : ℝ) + 0.5 - 0.5)) = 0
    rw [this, Real.sqrt_zero]
  rw [h0]
  apply le_antisymm
  · simp only [min_le_iff, le_min_iff, le_refl, true_or, or_true, true_and, and_true]
  · simp only [le_min_iff, Vec2.length, Real.sqrt_nonneg, and_true, true_and]
    norm_num

theorem fract_A : (starSt starDirA).fract = ⟨0.5, 0.5⟩ := by
  rw [starSt_A]
  simp only [Vec2.fract, floor_half]
  norm_num

theorem fract_B : (starSt starDirB).fract = ⟨0.5, 0.5⟩ := by
  rw [starSt_B]
  simp only [Vec2.fract, floor_half, floor_three_halves]
  norm_num

theorem starIntensity_A : starIntensity starDirA = 1 := by
  unfold starIntensity
  rw [fract_A, starMinDist_centre]
  simp only [smoothstep, clamp]
  norm_num

theorem starPhase_A : starPhase starDirA = 0 := by
  unfold starPhase
  rw [starSt_A]
  simp only [Vec2.floor, floor_half]
  norm_num

theorem starPhase_B : starPhase starDirB = 5 := by
  unfold starPhase
  rw [starSt_B]
  simp only [Vec2.floor, floor_half, floor_three_halves]
  norm_num

theorem sin_five_neg : Real.sin 5 < 0 := by
  have h3 := Real.pi_gt_three
  have h4 := Real.pi_le_four
  have e : Real.sin 5 = Real.sin (5 - 2 * Real.pi) := (Real.sin_sub_two_pi 5).symm
  rw [e]
  exact Real.sin_neg_of_neg_of_neg_pi_lt (by linarith) (by linarith)

/-- Claim C6 as stated fails: the unit directions `starDirA` and `starDirB`, at the centres of
the cells `(0,0)` and `(0,1)`, have the same fractional coordinates and the same star
intensity, and different output colours. -/
theorem starfield_colour_differs :
    starDirA.length = 1 ∧ starDirB.length = 1 ∧
    (starSt starDirA).fract = (starSt starDirB).fract ∧
    starIntensity starDirA = starIntensity starDirB ∧
    starfield starDirA ≠ starfield starDirB := by
  have hf : (starSt starDirA).fract = (starSt starDirB).fract := by rw [fract_A, fract_B]
  have hs := starIntensity_congr _ _ hf
  refine ⟨dirOf_length _ _, dirOf_length _ _, hf, hs, ?_⟩
  intro hne
  rw [starfield_eq_iff _ _ hs, starIntensity_A, starPhase_A, starPhase_B, Real.sin_zero] at hne
  have := sin_five_neg
  rcases hne with h | h
  · norm_num at h
  · linarith

theorem hostRay_unit : hostRay.rayDir.length = 1 := by
  rw [Vec3.length_eq_one_iff]
  simp only [hostRay, marchFrom]
  norm_num

theorem hostRay_advanced : advanced hostRay = ⟨0, 1, 4.95⟩ := by
  rw [Vec3.ext_iff3]
  simp only [advanced, hostRay, marchFrom, dt, Vec3.add_x, Vec3.add_y, Vec3.add_z, Vec3.mul_x,
    Vec3.mul_y, Vec3.mul_z]
  norm_num

theorem hostRay_outside : ¬ (advanced hostRay - blackHolePos).length < horizonRadius := by
  rw [length_sub_blackHole, hostRay_advanced]
  have := length_ge_one_of_dot ⟨0, 1, 4.95⟩ (by simp only [Vec3.dot]; norm_num)
  have h1 : horizonRadius = 1 := by unfold horizonRadius; norm_num
  rw [h1]
  exact not_lt.mpr this

theorem hostRay_unlit (iTime : ℝ) : ¬ accretionDisk iTime (advanced hostRay) > 0 := by
  rw [hostRay_advanced, accretionDisk_eq_profile]
  unfold diskProfile
  rw [if_neg]
  · norm_num
  · rintro ⟨_, _, h⟩
    norm_num at h

/-- Witness for claim C1: the central ray of the initial camera, at time `0`. -/
theorem renormalization_invariant_witness :
    hostRay.rayDir.length = 1 ∧ (forLoop 0 1000 hostRay).rayDir.length = 1 :=
  ⟨hostRay_unit, (renormalization_invariant 0 hostRay hostRay_unit).1 1000⟩

/-- Witness for claim C10: the first pass of the central ray of the initial camera. -/
theorem deflection_guard_witness :
    ¬ (advanced hostRay - blackHolePos).length < horizonRadius ∧
    ¬ accretionDisk 0 (advanced hostRay) > 0 ∧
    (blackHolePos - advanced hostRay).length > 0.1 :=
  ⟨hostRay_outside, hostRay_unlit 0,
    (deflection_guard 0 hostRay hostRay_outside (hostRay_unlit 0)).2.1⟩

theorem host_forward_ne : (⟨0, 1, 4⟩ : Vec3) - ⟨0, 1, 5⟩ ≠ vec3 0 := by
  intro h
  rw [Vec3.ext_iff3] at h
  simp only [Vec3.sub_z, vec3] at h
  norm_num at h

theorem host_cross_ne : cross ((⟨0, 1, 4⟩ : Vec3) - ⟨0, 1, 5⟩) camUp ≠ vec3 0 := by
  intro h
  rw [Vec3.ext_iff3] at h
  simp only [cross, camUp, Vec3.sub_x, Vec3.sub_y, Vec3.sub_z, vec3] at h
  norm_num at h

/-- Witness for claim C7: the centre pixel of the initial camera. -/
theorem rayDirection_unit_witness :
    (⟨0, 1, 4⟩ : Vec3) - ⟨0, 1, 5⟩ ≠ vec3 0 ∧
    cross ((⟨0, 1, 4⟩ : Vec3) - ⟨0, 1, 5⟩) camUp ≠ vec3 0 ∧
    (rayDirection ⟨0, 0⟩ ⟨0, 1, 5⟩ ⟨0, 1, 4⟩ camUp 1).length = 1 :=
  ⟨host_forward_ne, host_cross_ne,
    (rayDirection_unit ⟨0, 0⟩ ⟨0, 1, 5⟩ ⟨0, 1, 4⟩ camUp 1 host_forward_ne host_cross_ne
      one_ne_zero).2.2.2⟩

theorem insideCamera_start :
    iterStart insideCamera.iTime 0 (initMarch insideCamera ⟨0.5, 0.5⟩)
      = some (initMarch insideCamera ⟨0.5, 0.5⟩) := by
  simp only [iterStart]
  rw [if_pos]
  show (0 : ℕ) < 1000
  norm_num

theorem insideCamera_near :
    (advanced (initMarch insideCamera ⟨0.5, 0.5⟩) - blackHolePos).length < 1.0 := by
  have hu : (initMarch insideCamera ⟨0.5, 0.5⟩).rayDir.length = 1 := by
    rw [initMarch_eq]
    simp only [marchFrom]
    apply rayDirection_length
    · intro h
      rw [Vec3.ext_iff3] at h
      simp only [insideCamera, Vec3.sub_z, Vec3.add_z, vec3] at h
      norm_num at h
    · intro h
      rw [Vec3.ext_iff3] at h
      simp only [insideCamera, cross, Vec3.sub_x, Vec3.sub_y, Vec3.sub_z, Vec3.add_x, Vec3.add_y,
        Vec3.add_z, vec3] at h
      norm_num at h
    · simp only [insideCamera]; norm_num
  have e : advanced (initMarch insideCamera ⟨0.5, 0.5⟩)
      = (initMarch insideCamera ⟨0.5, 0.5⟩).rayDir * dt := by
    rw [Vec3.ext_iff3]
    simp [advanced, initMarch, insideCamera]
  rw [length_sub_blackHole, e, Vec3.length_mul, hu]
  norm_num [dt]
  rw [abs_of_pos] <;> norm_num

/-- Witness for claim C2: a camera at the black-hole centre, first pass. -/
theorem horizon_priority_witness :
    iterStart insideCamera.iTime 0 (initMarch insideCamera ⟨0.5, 0.5⟩)
      = some (initMarch insideCamera ⟨0.5, 0.5⟩) ∧
    (advanced (initMarch insideCamera ⟨0.5, 0.5⟩) - blackHolePos).length < 1.0 ∧
    fragMain insideCamera ⟨0.5, 0.5⟩ = ⟨0, 0, 0, 1⟩ :=
  ⟨insideCamera_start, insideCamera_near,
    (horizon_priority insideCamera ⟨0.5, 0.5⟩ 0 _ insideCamera_start
      insideCamera_near).2.2.2.2.2.2⟩

/-- Witness for claim C5: pass number `0` at time `0`. -/
theorem escape_ray_step_cap_witness :
    (0 : ℕ) < 1000 ∧ ∃ s, iterStart 0 0 escapeRay = some s ∧
      ¬ (advanced s - blackHolePos).length < horizonRadius ∧
      ¬ accretionDisk 0 (advanced s) > 0 ∧
      ¬ s.t + dt > 100 ∧ (loopBody 0 s).2 = false :=
  ⟨by norm_num, (escape_ray_step_cap 0).1 0 (by norm_num)⟩

theorem fract_A_eq_B : (starSt starDirA).fract = (starSt starDirB).fract := by
  rw [fract_A, fract_B]

/-- Witness for claim C6: the directions `starDirA` and `starDirB`. -/
theorem starfield_periodic_witness :
    (starSt starDirA).fract = (starSt starDirB).fract ∧
    starIntensity starDirA = starIntensity starDirB :=
  ⟨fract_A_eq_B, (starfield_periodic starDirA starDirB fract_A_eq_B).1⟩

end BlackHole

end
